import Mathlib

/-!
Shallow embedding of `src/interpreter.py` (a brainfuck interpreter) and
verification of its specification.

Python exceptions are embedded as `Except BFError`: the interpreter's own
`Exception` messages become dedicated constructors, and Python runtime
faults (IndexError from list indexing, TypeError from subscripting an int,
EOFError from `input()` at end of input) become `indexError` / `typeError` /
`eofError`.  Python's negative-index wraparound on lists is not modelled:
the pointer is initialised to 0 and every assignment clamps it with
`max(_, 0)`, so a negative index never reaches a list access.
-/

namespace BF

/-- Errors of the interpreter: the `Exception`s it raises itself plus the
Python runtime faults its list/int operations can raise. -/
inductive BFError where
  | emptyProgram
  | unmatchedOpening (pos : Int)
  | unmatchedClosing (pos : Int)
  | unknownInstruction (c : Char)
  | invalidMemoryArgument
  | indexError
  | typeError
  | valueError
  | eofError
  deriving DecidableEq

instance {ε α : Type} [DecidableEq ε] [DecidableEq α] : DecidableEq (Except ε α)
  | .error a, .error b =>
      if h : a = b then .isTrue (by rw [h]) else .isFalse (fun he => h (by injection he))
  | .error _, .ok _ => .isFalse (fun he => Except.noConfusion he)
  | .ok _, .error _ => .isFalse (fun he => Except.noConfusion he)
  | .ok a, .ok b =>
      if h : a = b then .isTrue (by rw [h]) else .isFalse (fun he => h (by injection he))

/-- One character written by `Memory.print`: either a Python `print` of the
integer itself (the `output <= 9` branch) or of `chr(output)`. -/
inductive OutChar where
  | digit (n : Int)
  | codepoint (n : Nat)
  deriving DecidableEq

/-- The `Memory` class: `cells` list, `pointer`, and the cached `value`. -/
structure Memory where
  cells : List Int
  pointer : Int
  value : Int
  deriving DecidableEq

/-- `Memory.__init__(size)`: all cells zero, pointer 0, cached value 0. -/
def Memory.init (size : Nat) : Memory :=
  { cells := List.replicate size 0, pointer := 0, value := 0 }

/-- `Memory.setCellTo(value)`: `cells[pointer] = max(value, 0)` then
`value = cells[pointer]`; both list accesses fault when the pointer is out
of range. -/
def Memory.setCellTo (m : Memory) (value : Int) : Except BFError Memory :=
  if 0 ≤ m.pointer ∧ m.pointer.toNat < m.cells.length then
    .ok (Memory.mk (m.cells.set m.pointer.toNat (max value 0)) m.pointer
      ((m.cells.set m.pointer.toNat (max value 0)).getD m.pointer.toNat 0))
  else .error .indexError

/-- `Memory.setPointerTo(cell)`: `pointer = max(cell, 0)` then
`value = cells[pointer]`, which faults when the new pointer is out of
range. -/
def Memory.setPointerTo (m : Memory) (cell : Int) : Except BFError Memory :=
  if (max cell 0).toNat < m.cells.length then
    .ok (Memory.mk m.cells (max cell 0) (m.cells.getD (max cell 0).toNat 0))
  else .error .indexError

/-- `Memory.setValue(increment)`: `setCellTo(cells[pointer] + increment)`;
the read of `cells[pointer]` faults when the pointer is out of range. -/
def Memory.setValue (m : Memory) (increment : Int) : Except BFError Memory :=
  if 0 ≤ m.pointer ∧ m.pointer.toNat < m.cells.length then
    m.setCellTo (m.cells.getD m.pointer.toNat 0 + increment)
  else .error .indexError

/-- `Memory.setPointer(increment)`: `setPointerTo(pointer + increment)`. -/
def Memory.setPointer (m : Memory) (increment : Int) : Except BFError Memory :=
  m.setPointerTo (m.pointer + increment)

/-- `Memory.read`, applied to the one input line returned by `input("")`.
On an empty line the Python code assigns `inputValue = 0` and then
unconditionally evaluates `inputValue[0]`, which raises `TypeError`
(subscripting an int); otherwise it stores `ord(line[0])` via
`setCellTo`. -/
def Memory.read (m : Memory) (line : List Char) : Except BFError Memory :=
  match line with
  | [] => .error .typeError
  | c :: _ => m.setCellTo (c.toNat : Int)

/-- `Memory.print`: writes the cached `value` — `chr(value)` when
`value > 9` (Python `chr` raises `ValueError` past `0x10FFFF`), otherwise
the integer itself, printed in decimal. -/
def Memory.print (m : Memory) : Except BFError OutChar :=
  if m.value > 9 then
    if m.value ≤ 0x10FFFF then .ok (.codepoint m.value.toNat) else .error .valueError
  else .ok (.digit m.value)

/-- Contribution of one character to the running depth in
`getNestingLevels`: `+1` on the opening bracket, `-1` on the closing one
(two independent `if`s in the Python, hence a sum). -/
def bdelta (opening closing c : Char) : Int :=
  (if c = opening then 1 else 0) + (if c = closing then -1 else 0)

/-- The loop of `getNestingLevels`: scans the remaining `text` at absolute
position `i` with running `depth` and `lastopen`, producing the list of
per-character depths or the error the Python code raises. -/
def gnlAux (opening closing : Char) : List Char → Nat → Int → Int → Except BFError (List Int)
  | [], _, depth, lastopen =>
      if depth > 0 then .error (.unmatchedOpening lastopen) else .ok []
  | c :: rest, i, depth, lastopen =>
      let lastopen2 := if c = opening then (i : Int) else lastopen
      let depth2 := depth + bdelta opening closing c
      if depth2 < 0 then .error (.unmatchedClosing i)
      else (gnlAux opening closing rest (i + 1) depth2 lastopen2).map (depth2 :: ·)

/-- `getNestingLevels(text, opening, closing)`: rejects the empty program,
otherwise runs the scan from depth 0 with `lastopen = -1`. -/
def getNestingLevels (text : List Char) (opening : Char := '[') (closing : Char := ']') :
    Except BFError (List Int) :=
  if text.length = 0 then .error .emptyProgram
  else gnlAux opening closing text 0 0 (-1)

/-- Index of the first element of `l` strictly below `level`, if any: the
forward scan of `findLevelClosing` over `forward[1:]`. -/
def findFirstLt (l : List Int) (level : Int) : Option Nat :=
  match l with
  | [] => none
  | a :: rest => if a < level then some 0 else (findFirstLt rest level).map (· + 1)

/-- `findLevelClosing(levels, i)`: with `level = levels[i]` (IndexError when
`i` is out of range) scan `forward = levels[i:]` at offsets `1, 2, ...` for
the first entry below `level` and return `i + f + 1`; raise
"Unmatched opening bracket" when none exists. -/
def findLevelClosing (levels : List Int) (i : Nat) : Except BFError Nat :=
  if i < levels.length then
    let level := levels.getD i 0
    match findFirstLt (levels.drop (i + 1)) level with
    | some k => .ok (i + k + 2)
    | none => .error (.unmatchedOpening i)
  else .error .indexError

/-- The backward scan of `findLevelOpening`:
`for f in range(len(backward) - 1, 0, -1)` — checks indices `f, f-1, ..., 1`
of `backward`, never index 0, for an entry equal to `level`. -/
def scanBackEq (backward : List Int) (level : Int) : Nat → Option Nat
  | 0 => none
  | f + 1 =>
      if backward.getD (f + 1) 0 = level then some (f + 1)
      else scanBackEq backward level f

/-- `findLevelOpening(levels, i)`: with `level = levels[i]` (IndexError when
`i` is out of range) scan `backward = levels[:i]` from index `i - 1` down to
index 1 for an entry equal to `level` and return it plus 2; raise
"Unmatched closing bracket" when the scan exhausts. -/
def findLevelOpening (levels : List Int) (i : Nat) : Except BFError Nat :=
  if i < levels.length then
    let level := levels.getD i 0
    let backward := levels.take i
    match scanBackEq backward level (backward.length - 1) with
    | some f => .ok (f + 2)
    | none => .error (.unmatchedClosing i)
  else .error .indexError

/-- The state of the dispatch loop of `brainfuck`: instruction pointer,
memory, the input lines not yet consumed, and the output emitted so far. -/
structure EngineState where
  i : Nat
  mem : Memory
  inp : List (List Char)
  out : List OutChar
  deriving DecidableEq

/-- Result of one iteration (or a bounded run) of the dispatch loop. -/
inductive StepResult where
  | running (s : EngineState)
  | halted (s : EngineState)
  | failed (e : BFError) (s : EngineState)
  deriving DecidableEq

/-- One iteration of the `while i < len(script)` dispatch loop of
`brainfuck`.  The unused Python read `l = levels[i]` cannot fault (the loop
runs with `len(levels) = len(script)`) and is omitted. -/
def bfStep (script : List Char) (levels : List Int) (s : EngineState) : StepResult :=
  if s.i < script.length then
    let c := script.getD s.i ' '
    if c = '+' then
      match s.mem.setValue 1 with
      | .ok m => .running { s with i := s.i + 1, mem := m }
      | .error e => .failed e s
    else if c = '-' then
      match s.mem.setValue (-1) with
      | .ok m => .running { s with i := s.i + 1, mem := m }
      | .error e => .failed e s
    else if c = '>' then
      match s.mem.setPointer 1 with
      | .ok m => .running { s with i := s.i + 1, mem := m }
      | .error e => .failed e s
    else if c = '<' then
      match s.mem.setPointer (-1) with
      | .ok m => .running { s with i := s.i + 1, mem := m }
      | .error e => .failed e s
    else if c = '.' then
      match s.mem.print with
      | .ok o => .running { s with i := s.i + 1, out := s.out ++ [o] }
      | .error e => .failed e s
    else if c = ',' then
      match s.inp with
      | [] => .failed .eofError s
      | line :: rest =>
          match s.mem.read line with
          | .ok m => .running { s with i := s.i + 1, mem := m, inp := rest }
          | .error e => .failed e { s with inp := rest }
    else if c = '[' then
      if s.mem.value = 0 then
        match findLevelClosing levels s.i with
        | .ok j => .running { s with i := j }
        | .error e => .failed e s
      else .running { s with i := s.i + 1 }
    else if c = ']' then
      if s.mem.value ≠ 0 then
        match findLevelOpening levels s.i with
        | .ok j => .running { s with i := j }
        | .error e => .failed e s
      else .running { s with i := s.i + 1 }
    else .failed (.unknownInstruction c) s
  else .halted s

/-- Fuel-bounded iteration of `bfStep`; `running` on fuel exhaustion. -/
def bfRun (script : List Char) (levels : List Int) : Nat → EngineState → StepResult
  | 0, s => .running s
  | fuel + 1, s =>
      match bfStep script levels s with
      | .running s2 => bfRun script levels fuel s2
      | r => r

/-- Fresh engine state at instruction 0 with no output. -/
def EngineState.init (mem : Memory) (inp : List (List Char)) : EngineState :=
  { i := 0, mem := mem, inp := inp, out := [] }

/-- `brainfuck(text, memory, memsize)` on literal program text (the
`os.path.isfile` branch, reading the program from a file, is outside the
embedding): validate with `getNestingLevels`, then run the dispatch loop
with the given fuel.  A `none` memory argument means a fresh
`Memory(memsize)`. -/
def brainfuck (text : List Char) (inp : List (List Char)) (fuel : Nat)
    (memory : Option Memory) (memsize : Nat) : StepResult :=
  let mem := memory.getD (Memory.init memsize)
  match getNestingLevels text with
  | .error e => .failed e (EngineState.init mem inp)
  | .ok levels => bfRun text levels fuel (EngineState.init mem inp)

/-- The mutating `Memory` operations, for stating state-invariant claims
about arbitrary call sequences. -/
inductive MemOp where
  | setValue (increment : Int)
  | setCellTo (value : Int)
  | setPointer (increment : Int)
  | setPointerTo (cell : Int)
  | read (line : List Char)
  deriving DecidableEq

/-- Apply one mutating operation. -/
def Memory.applyOp (m : Memory) : MemOp → Except BFError Memory
  | .setValue d => m.setValue d
  | .setCellTo v => m.setCellTo v
  | .setPointer d => m.setPointer d
  | .setPointerTo c => m.setPointerTo c
  | .read line => m.read line

/-- Apply a sequence of mutating operations, stopping at the first error. -/
def Memory.applyOps (m : Memory) : List MemOp → Except BFError Memory
  | [] => .ok m
  | op :: ops => (m.applyOp op).bind (fun m2 => m2.applyOps ops)

/-- Well-formed tape state: all cells non-negative and pointer
non-negative — the invariants the spec asserts of the tape. -/
def Memory.Wf (m : Memory) : Prop :=
  (∀ x ∈ m.cells, 0 ≤ x) ∧ 0 ≤ m.pointer

instance (m : Memory) : Decidable m.Wf := by
  unfold Memory.Wf; infer_instance

/-- The list of running depths the scan of `getNestingLevels` records when
it raises nothing: element `k` is the depth after processing character `k`,
starting from depth `d`. -/
def depthList (opening closing : Char) : List Char → Int → List Int
  | [], _ => []
  | c :: rest, d =>
      (d + bdelta opening closing c) :: depthList opening closing rest (d + bdelta opening closing c)

/-- Net depth contribution of a character sequence. -/
def deltaSum (opening closing : Char) (l : List Char) : Int :=
  (l.map (bdelta opening closing)).sum

/-- Final value of the Python `lastopen` variable after scanning `text`
starting at absolute position `i` with current value `lo`. -/
def lastOpenPos (opening : Char) : List Char → Nat → Int → Int
  | [], _, lo => lo
  | c :: rest, i, lo => lastOpenPos opening rest (i + 1) (if c = opening then (i : Int) else lo)

/-- Bracket balance, stated with plain character counts: no prefix closes
more brackets than it has opened, and the whole text closes every opened
bracket. -/
def Balanced (text : List Char) : Prop :=
  (∀ k ≤ text.length, ((text.take k).count ']' : Int) ≤ ((text.take k).count '[' : Int)) ∧
  text.count '[' = text.count ']'

instance (text : List Char) : Decidable (Balanced text) := by
  unfold Balanced; infer_instance

/-- C4: the empty input line crashes `Memory.read` (Python subscripts the
int 0), contrary to the documented intent of storing 0; a non-empty line is
stored as the code point of its first character via `setCellTo`. -/
theorem read_line_behaviour (m : Memory) :
    m.read [] = .error .typeError ∧
    ∀ (c : Char) (cs : List Char), m.read (c :: cs) = m.setCellTo (c.toNat : Int) :=
  ⟨rfl, fun _ _ => rfl⟩

/-- C5: `Memory.print` writes the literal decimal digit for a cached value
between 0 and 9, and the character with that code point for any larger
in-range value. -/
theorem print_digit_or_codepoint (m : Memory) :
    (0 ≤ m.value → m.value ≤ 9 → m.print = .ok (.digit m.value)) ∧
    (9 < m.value → m.value ≤ 0x10FFFF → m.print = .ok (.codepoint m.value.toNat)) := by
  constructor
  · intro _ h9
    simp only [Memory.print]
    rw [if_neg (by omega)]
  · intro h9 hr
    simp only [Memory.print]
    rw [if_pos (by omega), if_pos hr]

/-- Witness for C5 at concrete memories with cached values 3 and 64. -/
theorem print_digit_or_codepoint_witness :
    ((0:Int) ≤ 3 ∧ (3:Int) ≤ 9 ∧
      (Memory.mk [] 0 3).print = .ok (.digit 3)) ∧
    ((9:Int) < 64 ∧ (64:Int) ≤ 0x10FFFF ∧
      (Memory.mk [] 0 64).print = .ok (.codepoint 64)) :=
  ⟨⟨by decide, by decide,
      (print_digit_or_codepoint (Memory.mk [] 0 3)).1 (by decide) (by decide)⟩,
    ⟨by decide, by decide,
      (print_digit_or_codepoint (Memory.mk [] 0 64)).2 (by decide) (by decide)⟩⟩

/-- Helper: `setCellTo` leaves the cached value equal to the current cell. -/
theorem setCellTo_synced (m : Memory) (v : Int) (m2 : Memory)
    (h : m.setCellTo v = .ok m2) : m2.value = m2.cells.getD m2.pointer.toNat 0 := by
  simp only [Memory.setCellTo] at h
  split_ifs at h with hc
  · injection h with h
    subst h
    rfl

/-- Helper: `setPointerTo` leaves the cached value equal to the current
cell. -/
theorem setPointerTo_synced (m : Memory) (c : Int) (m2 : Memory)
    (h : m.setPointerTo c = .ok m2) : m2.value = m2.cells.getD m2.pointer.toNat 0 := by
  simp only [Memory.setPointerTo] at h
  split_ifs at h with hc
  · injection h with h
    subst h
    rfl

/-- C9: after every successful mutating operation the cached `value` field
equals `cells[pointer]`. -/
theorem value_cache_synced :
    ∀ (m : Memory) (op : MemOp) (m2 : Memory),
      m.applyOp op = .ok m2 → m2.value = m2.cells.getD m2.pointer.toNat 0 := by
  intro m op m2
  cases op with
  | setValue d =>
      simp only [Memory.applyOp, Memory.setValue]
      split_ifs with h
      · exact setCellTo_synced m _ m2
      · intro he; exact he.elim
  | setCellTo v => exact setCellTo_synced m v m2
  | setPointer d => exact setPointerTo_synced m _ m2
  | setPointerTo p => exact setPointerTo_synced m p m2
  | read line =>
      cases line with
      | nil => intro he; exact Except.noConfusion he
      | cons c cs => exact setCellTo_synced m _ m2

/-- Witness for C9: a concrete pointer move re-syncs the cache. -/
theorem value_cache_synced_witness :
    (Memory.mk [5, 7] 0 5).applyOp (MemOp.setPointer 1) = .ok (Memory.mk [5, 7] 1 7) ∧
    (Memory.mk [5, 7] 1 7).value =
      (Memory.mk [5, 7] 1 7).cells.getD (Memory.mk [5, 7] 1 7).pointer.toNat 0 :=
  ⟨by decide, value_cache_synced (Memory.mk [5, 7] 0 5) (MemOp.setPointer 1) _ (by decide)⟩

/-- C10: a pointer move past the upper end of the tape faults immediately
at the move itself, while any other move (including one clamped at 0)
succeeds and leaves a pointer at which a subsequent write cannot fault. -/
theorem move_fault_iff (m : Memory) (d : Int) (hN : 0 < m.cells.length) :
    ((m.cells.length : Int) ≤ m.pointer + d → m.setPointer d = .error .indexError) ∧
    (m.pointer + d < (m.cells.length : Int) →
      ∃ m2, m.setPointer d = .ok m2 ∧ m2.pointer = max (m.pointer + d) 0 ∧
        ∀ v, ∃ m3, m2.setCellTo v = .ok m3) := by
  constructor
  · intro h
    simp only [Memory.setPointer, Memory.setPointerTo]
    rw [if_neg (by omega)]
  · intro h
    simp only [Memory.setPointer, Memory.setPointerTo]
    rw [if_pos (by omega)]
    refine ⟨_, rfl, rfl, ?_⟩
    intro v
    simp only [Memory.setCellTo]
    rw [if_pos ⟨le_max_right _ _, by omega⟩]
    exact ⟨_, rfl⟩

/-- Witness for C10 on a two-cell tape: moving to index 3 faults, moving
down past 0 clamps and succeeds. -/
theorem move_fault_iff_witness :
    0 < (Memory.mk [5, 7] 1 7).cells.length ∧
    ((Memory.mk [5, 7] 1 7).cells.length : Int) ≤ (Memory.mk [5, 7] 1 7).pointer + 2 ∧
    (Memory.mk [5, 7] 1 7).setPointer 2 = .error .indexError ∧
    ∃ m2, (Memory.mk [5, 7] 1 7).setPointer (-4) = .ok m2 ∧
      m2.pointer = max ((Memory.mk [5, 7] 1 7).pointer + (-4)) 0 ∧
      ∀ v, ∃ m3, m2.setCellTo v = .ok m3 :=
  ⟨by decide, by decide,
    (move_fault_iff (Memory.mk [5, 7] 1 7) 2 (by decide)).1 (by decide),
    (move_fault_iff (Memory.mk [5, 7] 1 7) (-4) (by decide)).2 (by decide)⟩

/-- Helper: `setCellTo` preserves tape well-formedness. -/
theorem wf_setCellTo (m : Memory) (v : Int) (m2 : Memory) (hm : m.Wf)
    (h : m.setCellTo v = .ok m2) : m2.Wf := by
  simp only [Memory.setCellTo] at h
  split_ifs at h with hc
  injection h with h
  subst h
  refine ⟨?_, hm.2⟩
  intro x hx
  rcases List.mem_or_eq_of_mem_set hx with h1 | h1
  · exact hm.1 x h1
  · subst h1; exact le_max_right v 0

/-- Helper: `setPointerTo` preserves tape well-formedness. -/
theorem wf_setPointerTo (m : Memory) (c : Int) (m2 : Memory) (hm : m.Wf)
    (h : m.setPointerTo c = .ok m2) : m2.Wf := by
  simp only [Memory.setPointerTo] at h
  split_ifs at h with hc
  injection h with h
  subst h
  exact ⟨hm.1, le_max_right c 0⟩

/-- Helper: every single mutating operation preserves tape
well-formedness. -/
theorem wf_applyOp (m : Memory) (op : MemOp) (m2 : Memory) (hm : m.Wf)
    (h : m.applyOp op = .ok m2) : m2.Wf := by
  cases op with
  | setValue d =>
      simp only [Memory.applyOp, Memory.setValue] at h
      split_ifs at h with hc
      exact wf_setCellTo m _ m2 hm h
  | setCellTo v => exact wf_setCellTo m v m2 hm h
  | setPointer d => exact wf_setPointerTo m _ m2 hm h
  | setPointerTo p => exact wf_setPointerTo m p m2 hm h
  | read line =>
      cases line with
      | nil => exact Except.noConfusion h
      | cons c cs => exact wf_setCellTo m _ m2 hm h

/-- Helper: every successful sequence of mutating operations preserves tape
well-formedness. -/
theorem wf_applyOps :
    ∀ (ops : List MemOp) (m m2 : Memory), m.Wf → m.applyOps ops = .ok m2 → m2.Wf
  | [], m, m2, hm, h => by
      simp only [Memory.applyOps] at h
      injection h with h
      subst h
      exact hm
  | op :: ops, m, m2, hm, h => by
      simp only [Memory.applyOps] at h
      cases hop : m.applyOp op with
      | error e => rw [hop] at h; exact Except.noConfusion h
      | ok m1 =>
          rw [hop] at h
          exact wf_applyOps ops m1 m2 (wf_applyOp m op m1 hm hop) h

/-- C6: over any sequence of mutating calls a well-formed tape stays
well-formed (cells and pointer non-negative), an `adjustBy` that would
drive the current cell negative leaves it at exactly 0, and a `moveBy` that
would drive the pointer below 0 leaves it at exactly 0. -/
theorem tape_clamped :
    (∀ (m : Memory) (ops : List MemOp) (m2 : Memory),
        m.Wf → m.applyOps ops = .ok m2 → m2.Wf) ∧
    (∀ (m : Memory) (d : Int) (m2 : Memory),
        m.setValue d = .ok m2 → m.cells.getD m.pointer.toNat 0 + d < 0 →
        m2.cells.getD m.pointer.toNat 0 = 0) ∧
    (∀ (m : Memory) (d : Int) (m2 : Memory),
        m.setPointer d = .ok m2 → m.pointer + d < 0 → m2.pointer = 0) := by
  refine ⟨fun m ops m2 hm h => wf_applyOps ops m m2 hm h, ?_, ?_⟩
  · intro m d m2 h hneg
    simp only [Memory.setValue, Memory.setCellTo] at h
    split_ifs at h with hc
    injection h with h
    subst h
    have : max (m.cells.getD m.pointer.toNat 0 + d) 0 = 0 := by omega
    rw [this]
    simp only [List.getD_eq_getElem?_getD]
    rw [List.getElem?_set_self (by omega)]
    rfl
  · intro m d m2 h hneg
    simp only [Memory.setPointer, Memory.setPointerTo] at h
    split_ifs at h with hc
    injection h with h
    subst h
    simp only []
    omega

/-- Witness for C6 on a one-cell tape: decrementing from 0 and moving left
from 0 both clamp at exactly 0 and preserve well-formedness. -/
theorem tape_clamped_witness :
    ((Memory.init 1).Wf ∧
      (Memory.init 1).applyOps [MemOp.setValue (-5), MemOp.setPointer (-3)] =
        .ok (Memory.mk [0] 0 0) ∧
      (Memory.mk [0] 0 0).Wf) ∧
    ((Memory.init 1).setValue (-5) = .ok (Memory.mk [0] 0 0) ∧
      (Memory.init 1).cells.getD (Memory.init 1).pointer.toNat 0 + (-5) < 0 ∧
      (Memory.mk [0] 0 0).cells.getD (Memory.init 1).pointer.toNat 0 = 0) ∧
    ((Memory.init 1).setPointer (-3) = .ok (Memory.mk [0] 0 0) ∧
      (Memory.init 1).pointer + (-3) < 0 ∧
      (Memory.mk [0] 0 0).pointer = 0) :=
  ⟨⟨by decide, by decide,
      tape_clamped.1 (Memory.init 1) [MemOp.setValue (-5), MemOp.setPointer (-3)]
        (Memory.mk [0] 0 0) (by decide) (by decide)⟩,
    ⟨by decide, by decide,
      tape_clamped.2.1 (Memory.init 1) (-5) (Memory.mk [0] 0 0) (by decide) (by decide)⟩,
    ⟨by decide, by decide,
      tape_clamped.2.2 (Memory.init 1) (-3) (Memory.mk [0] 0 0) (by decide) (by decide)⟩⟩

/-- Counterexample to C1: the program consisting of one bracket pair
passes validation, but resolving forward from the open bracket at
position 0 and then backward from the close bracket just before the result
does not return to position 1 — the backward scan stops before index 0 and
raises "Unmatched closing bracket". -/
theorem roundtrip_cx :
    getNestingLevels ['[', ']'] = .ok [1, 0] ∧
    findLevelClosing [1, 0] 0 = .ok 2 ∧
    findLevelOpening [1, 0] (2 - 1) = .error (.unmatchedClosing 1) := by
  decide

/-- Counterexample to C7: on the program of two open brackets the analyzer
reports position 1 — the inner (most recent) bracket held in `lastopen` —
not position 0, the outer one. -/
theorem lastopen_cx :
    getNestingLevels ['[', '['] = .error (.unmatchedOpening 1) ∧
    ¬ getNestingLevels ['[', '['] = .error (.unmatchedOpening 0) := by
  decide

/-- Helper: `setValue 1` on a fresh non-empty memory sets cell 0 to 1. -/
theorem init_setValue_one (N : Nat) :
    (Memory.init (N + 1)).setValue 1 = .ok (Memory.mk ((1 : Int) :: List.replicate N 0) 0 1) := by
  simp only [Memory.init, Memory.setValue, Memory.setCellTo, List.length_replicate,
    List.replicate_succ]
  norm_num

/-- Helper: dispatch on an unrecognized character fails with
`UnknownInstruction` and returns the engine state unchanged. -/
theorem bfStep_unknown (script : List Char) (levels : List Int) (s : EngineState) (c : Char)
    (hi : s.i < script.length) (hc : script.getD s.i ' ' = c)
    (h1 : c ≠ '+') (h2 : c ≠ '-') (h3 : c ≠ '>') (h4 : c ≠ '<') (h5 : c ≠ '.') (h6 : c ≠ ',')
    (h7 : c ≠ '[') (h8 : c ≠ ']') :
    bfStep script levels s = .failed (.unknownInstruction c) s := by
  simp only [bfStep, hc]
  rw [if_pos hi, if_neg h1, if_neg h2, if_neg h3, if_neg h4, if_neg h5, if_neg h6,
    if_neg h7, if_neg h8]

/-- Helper: the first step of running `"+x"` applies the `+`. -/
theorem bfStep_plus_x (N : Nat) :
    bfStep ['+', 'x'] [0, 0] (EngineState.mk 0 (Memory.init (N + 1)) [] []) =
      .running (EngineState.mk 1 (Memory.mk ((1 : Int) :: List.replicate N 0) 0 1) [] []) := by
  simp only [bfStep]
  rw [if_pos (by norm_num)]
  norm_num [init_setValue_one]

/-- C8: running `"+x"` on a fresh non-empty memory fails with
`UnknownInstruction 'x'` and the tape at the moment of failure reflects
the one completed `+` (current cell 1); in general, dispatch failure on an
unknown character returns the engine state unchanged, retaining all prior
tape mutations. -/
theorem unknown_instruction_keeps_tape :
    (∀ N : Nat, 0 < N →
      ∃ s : EngineState,
        brainfuck ['+', 'x'] [] 2 none N = .failed (.unknownInstruction 'x') s ∧
        s.mem.value = 1 ∧ s.mem.cells.getD 0 0 = 1) ∧
    (∀ (script : List Char) (levels : List Int) (s : EngineState) (c : Char),
        s.i < script.length → script.getD s.i ' ' = c →
        c ≠ '+' → c ≠ '-' → c ≠ '>' → c ≠ '<' → c ≠ '.' → c ≠ ',' → c ≠ '[' → c ≠ ']' →
        bfStep script levels s = .failed (.unknownInstruction c) s) := by
  constructor
  · intro N hN
    obtain ⟨M, rfl⟩ : ∃ M, N = M + 1 := ⟨N - 1, by omega⟩
    refine ⟨EngineState.mk 1 (Memory.mk ((1 : Int) :: List.replicate M 0) 0 1) [] [],
      ?_, rfl, rfl⟩
    have hlev : getNestingLevels ['+', 'x'] = .ok [0, 0] := by decide
    have hstep2 := bfStep_unknown ['+', 'x'] [0, 0]
      (EngineState.mk 1 (Memory.mk ((1 : Int) :: List.replicate M 0) 0 1) [] []) 'x'
      (by norm_num) rfl (by decide) (by decide) (by decide) (by decide) (by decide)
      (by decide) (by decide) (by decide)
    simp only [brainfuck, hlev, Option.getD, EngineState.init, bfRun, bfStep_plus_x, hstep2]
  · exact bfStep_unknown

/-- Witness for C8: the concrete run on a one-cell tape, and a concrete
unknown-character dispatch failure. -/
theorem unknown_instruction_keeps_tape_witness :
    (0 < 1 ∧ ∃ s : EngineState,
      brainfuck ['+', 'x'] [] 2 none 1 = .failed (.unknownInstruction 'x') s ∧
      s.mem.value = 1 ∧ s.mem.cells.getD 0 0 = 1) ∧
    bfStep ['x'] [0] (EngineState.init (Memory.init 1) []) =
      .failed (.unknownInstruction 'x') (EngineState.init (Memory.init 1) []) :=
  ⟨⟨by decide, unknown_instruction_keeps_tape.1 1 (by decide)⟩,
    unknown_instruction_keeps_tape.2 ['x'] [0] (EngineState.init (Memory.init 1) []) 'x'
      (by decide) (by decide) (by decide) (by decide) (by decide) (by decide) (by decide)
      (by decide) (by decide) (by decide)⟩

/-- Helper: `getD` after `drop` reads at the shifted index. -/
theorem getD_drop (l : List Int) (j k : Nat) : (l.drop j).getD k 0 = l.getD (j + k) 0 := by
  by_cases h : j + k < l.length
  · rw [List.getD_eq_getElem _ _ (by simp; omega), List.getD_eq_getElem _ _ h]
    exact List.getElem_drop ..
  · rw [List.getD_eq_default _ _ (by simp; omega), List.getD_eq_default _ _ (by omega)]

/-- Helper: `getD` below a `take` bound reads the original list. -/
theorem getD_take (l : List Int) (m k : Nat) (h : k < m) :
    (l.take m).getD k 0 = l.getD k 0 := by
  by_cases h2 : k < l.length
  · rw [List.getD_eq_getElem _ _ (by simp; omega), List.getD_eq_getElem _ _ h2]
    exact List.getElem_take ..
  · rw [List.getD_eq_default _ _ (by simp; omega), List.getD_eq_default _ _ (by omega)]

/-- Helper: the depth list has one entry per character. -/
theorem length_depthList (opening closing : Char) :
    ∀ (text : List Char) (d : Int), (depthList opening closing text d).length = text.length
  | [], _ => rfl
  | _ :: rest, d => by
      simp only [depthList, List.length_cons, length_depthList opening closing rest]

/-- Helper: `deltaSum` over a cons. -/
theorem deltaSum_cons (opening closing c : Char) (l : List Char) :
    deltaSum opening closing (c :: l) = bdelta opening closing c + deltaSum opening closing l := by
  simp [deltaSum]

/-- Helper: each entry of the depth list is the start depth plus the net
contribution of the prefix through that position. -/
theorem depthList_getD (opening closing : Char) :
    ∀ (text : List Char) (d : Int) (k : Nat), k < text.length →
      (depthList opening closing text d).getD k 0 =
        d + deltaSum opening closing (text.take (k + 1))
  | [], _, k, hk => by simp at hk
  | c :: rest, d, 0, _ => by
      simp [depthList, deltaSum]
  | c :: rest, d, k + 1, hk => by
      simp only [depthList, List.getD_cons_succ, List.take_succ_cons, deltaSum_cons]
      rw [depthList_getD opening closing rest _ k (by simpa using hk)]
      ring

/-- Helper: the net contribution of one more character. -/
theorem deltaSum_take_succ (opening closing : Char) (text : List Char) (k : Nat)
    (h : k < text.length) :
    deltaSum opening closing (text.take (k + 1)) =
      deltaSum opening closing (text.take k) + bdelta opening closing (text.getD k ' ') := by
  have h1 : text.take (k + 1) = text.take k ++ [text[k]] := by
    rw [List.take_succ, List.getElem?_eq_getElem h]
    rfl
  rw [h1]
  unfold deltaSum
  rw [List.map_append, List.sum_append]
  simp only [List.map_cons, List.map_nil, List.sum_cons, List.sum_nil, add_zero,
    List.getD_eq_getElem _ _ h]

/-- Helper: one character changes the depth by at most one in each
direction. -/
theorem bdelta_bounds (opening closing c : Char) :
    -1 ≤ bdelta opening closing c ∧ bdelta opening closing c ≤ 1 := by
  unfold bdelta
  split_ifs <;> norm_num

/-- Helper: `deltaSum` counts opening brackets minus closing brackets. -/
theorem deltaSum_eq_counts (opening closing : Char) :
    ∀ l : List Char,
      deltaSum opening closing l = (l.count opening : Int) - (l.count closing : Int)
  | [] => by simp [deltaSum]
  | c :: rest => by
      rw [deltaSum_cons, deltaSum_eq_counts opening closing rest,
        List.count_cons, List.count_cons]
      unfold bdelta
      rcases Decidable.em (c = opening) with h1 | h1 <;>
        rcases Decidable.em (c = closing) with h2 | h2
      · have h3 : opening = closing := h1.symm.trans h2
        simp [h1, h2, h3]
      · have h3 : ¬ opening = closing := fun hh => h2 (h1.trans hh)
        simp [h1, h2, h3]
        omega
      · have h3 : ¬ opening = closing := fun hh => h1 (h2.trans hh.symm)
        simp [h1, h2, h3]
        omega
      · simp [h1, h2]

/-- Helper: the scan of `getNestingLevels` succeeds exactly when the
running depth never goes negative and does not end positive, and then it
returns the depth list. -/
theorem gnlAux_ok_iff (opening closing : Char) :
    ∀ (text : List Char) (i : Nat) (d lo : Int) (ds : List Int),
      gnlAux opening closing text i d lo = .ok ds ↔
        ((∀ x ∈ depthList opening closing text d, 0 ≤ x) ∧
          d + deltaSum opening closing text ≤ 0 ∧
          ds = depthList opening closing text d)
  | [], i, d, lo, ds => by
      simp only [gnlAux, depthList, deltaSum, List.map_nil, List.sum_nil, List.not_mem_nil,
        false_implies, implies_true, true_and, add_zero]
      rcases Decidable.em (d > 0) with h | h
      · rw [if_pos h]
        constructor
        · intro he; exact Except.noConfusion he
        · intro ⟨h1, _⟩; omega
      · rw [if_neg h]
        constructor
        · intro he; injection he with he; exact ⟨by omega, he.symm⟩
        · intro ⟨_, he⟩; rw [he]
  | c :: rest, i, d, lo, ds => by
      simp only [gnlAux, depthList, deltaSum_cons]
      rcases Decidable.em (d + bdelta opening closing c < 0) with h | h
      · rw [if_pos h]
        constructor
        · intro he; exact Except.noConfusion he
        · intro ⟨h1, _⟩
          exact absurd (h1 _ (List.mem_cons_self _ _)) (by omega)
      · rw [if_neg h]
        constructor
        · intro he
          cases hrec : gnlAux opening closing rest (i + 1) (d + bdelta opening closing c)
              (if c = opening then (i : Int) else lo) with
          | error e =>
              rw [hrec] at he
              exact Except.noConfusion he
          | ok ds2 =>
              rw [hrec] at he
              injection he with he
              obtain ⟨ha, hb, hc2⟩ :=
                (gnlAux_ok_iff opening closing rest (i + 1) _ _ ds2).mp hrec
              refine ⟨?_, by omega, ?_⟩
              · intro x hx
                rcases List.mem_cons.mp hx with h1 | h1
                · omega
                · exact ha x (hc2 ▸ h1)
              · rw [← he, hc2]
        · intro ⟨h1, h2, h3⟩
          have hrec := (gnlAux_ok_iff opening closing rest (i + 1) (d + bdelta opening closing c)
            (if c = opening then (i : Int) else lo)
            (depthList opening closing rest (d + bdelta opening closing c))).mpr
            ⟨fun x hx => h1 x (List.mem_cons_of_mem _ hx), by omega, rfl⟩
          rw [hrec, h3]
          rfl

/-- Helper: a successful `getNestingLevels` run returns the depth list of
the text, all of whose entries are non-negative, with a non-positive total
contribution. -/
theorem gnl_ok_facts (text : List Char) (ds : List Int)
    (hok : getNestingLevels text = .ok ds) :
    ds = depthList '[' ']' text 0 ∧ (∀ x ∈ ds, 0 ≤ x) ∧
      deltaSum '[' ']' text ≤ 0 ∧ text ≠ [] := by
  unfold getNestingLevels at hok
  split_ifs at hok with h
  obtain ⟨h1, h2, h3⟩ := (gnlAux_ok_iff '[' ']' text 0 0 (-1) ds).mp hok
  refine ⟨h3, by rw [h3]; exact h1, by omega, ?_⟩
  intro he
  rw [he] at h
  exact h rfl

/-- Helper: the forward scan returns exactly the least index whose entry is
below the level. -/
theorem findFirstLt_eq_some_iff :
    ∀ (l : List Int) (level : Int) (k : Nat),
      findFirstLt l level = some k ↔
        (k < l.length ∧ l.getD k 0 < level ∧ ∀ j < k, ¬ l.getD j 0 < level)
  | [], level, k => by
      simp [findFirstLt]
  | a :: rest, level, k => by
      simp only [findFirstLt]
      rcases Decidable.em (a < level) with h | h
      · rw [if_pos h]
        constructor
        · intro he
          injection he with he
          subst he
          exact ⟨by simp, h, by omega⟩
        · intro ⟨h1, h2, h3⟩
          cases k with
          | zero => rfl
          | succ k2 => exact absurd h (h3 0 (by omega))
      · rw [if_neg h]
        constructor
        · intro he
          obtain ⟨k2, hk2, hk⟩ := Option.map_eq_some'.mp he
          subst hk
          obtain ⟨h1, h2, h3⟩ := (findFirstLt_eq_some_iff rest level k2).mp hk2
          refine ⟨by simpa using h1, by simpa using h2, ?_⟩
          intro j hj
          cases j with
          | zero => simpa using h
          | succ j2 => simpa using h3 j2 (by omega)
        · intro ⟨h1, h2, h3⟩
          cases k with
          | zero => exact absurd (by simpa using h2) h
          | succ k2 =>
              rw [Option.map_eq_some']
              refine ⟨k2, ?_, rfl⟩
              rw [findFirstLt_eq_some_iff rest level k2]
              refine ⟨by simpa using h1, by simpa using h2, ?_⟩
              intro j hj
              have := h3 (j + 1) (by omega)
              simpa using this

/-- Helper: the forward scan fails exactly when no entry is below the
level. -/
theorem findFirstLt_eq_none_iff :
    ∀ (l : List Int) (level : Int),
      findFirstLt l level = none ↔ ∀ j < l.length, ¬ l.getD j 0 < level
  | [], level => by simp [findFirstLt]
  | a :: rest, level => by
      simp only [findFirstLt]
      rcases Decidable.em (a < level) with h | h
      · rw [if_pos h]
        constructor
        · intro he; exact Option.noConfusion he
        · intro hall
          exact absurd h (by simpa using hall 0 (by simp))
      · rw [if_neg h]
        rw [Option.map_eq_none']
        rw [findFirstLt_eq_none_iff rest level]
        constructor
        · intro hall j hj
          cases j with
          | zero => simpa using h
          | succ j2 => simpa using hall j2 (by simpa using hj)
        · intro hall j hj
          have := hall (j + 1) (by simpa using hj)
          simpa using this

/-- Helper: the backward scan returns exactly the greatest index in
`[1, f]` whose entry equals the level. -/
theorem scanBackEq_eq_some_iff (back : List Int) (level : Int) :
    ∀ (f g : Nat),
      scanBackEq back level f = some g ↔
        (1 ≤ g ∧ g ≤ f ∧ back.getD g 0 = level ∧
          ∀ t, g < t → t ≤ f → back.getD t 0 ≠ level)
  | 0, g => by
      simp only [scanBackEq]
      constructor
      · intro he; exact Option.noConfusion he
      · intro ⟨h1, h2, _⟩; omega
  | f + 1, g => by
      simp only [scanBackEq]
      rcases Decidable.em (back.getD (f + 1) 0 = level) with h | h
      · rw [if_pos h]
        constructor
        · intro he
          injection he with he
          subst he
          exact ⟨by omega, by omega, h, by omega⟩
        · intro ⟨h1, h2, h3, h4⟩
          rcases Decidable.em (g = f + 1) with hg | hg
          · rw [hg]
          · exact absurd h (h4 (f + 1) (by omega) (by omega))
      · rw [if_neg h]
        rw [scanBackEq_eq_some_iff back level f g]
        constructor
        · intro ⟨h1, h2, h3, h4⟩
          refine ⟨h1, by omega, h3, ?_⟩
          intro t ht1 ht2
          rcases Decidable.em (t = f + 1) with ht | ht
          · rw [ht]; exact h
          · exact h4 t ht1 (by omega)
        · intro ⟨h1, h2, h3, h4⟩
          refine ⟨h1, ?_, h3, fun t ht1 ht2 => h4 t ht1 (by omega)⟩
          rcases Decidable.em (g = f + 1) with hg | hg
          · exact absurd (hg ▸ h3) h
          · omega

/-- Helper: the backward scan fails exactly when no index in `[1, f]` has
an entry equal to the level. -/
theorem scanBackEq_eq_none_iff (back : List Int) (level : Int) :
    ∀ f : Nat,
      scanBackEq back level f = none ↔ ∀ t, 1 ≤ t → t ≤ f → back.getD t 0 ≠ level
  | 0 => by
      simp only [scanBackEq]
      constructor
      · intro _ t ht1 ht2; omega
      · intro _; trivial
  | f + 1 => by
      simp only [scanBackEq]
      rcases Decidable.em (back.getD (f + 1) 0 = level) with h | h
      · rw [if_pos h]
        constructor
        · intro he; exact Option.noConfusion he
        · intro hall; exact absurd h (hall (f + 1) (by omega) (by omega))
      · rw [if_neg h]
        rw [scanBackEq_eq_none_iff back level f]
        constructor
        · intro hall t ht1 ht2
          rcases Decidable.em (t = f + 1) with ht | ht
          · rw [ht]; exact h
          · exact hall t ht1 (by omega)
        · intro hall t ht1 ht2
          exact hall t ht1 (by omega)

/-- Helper: a validated depth list has one entry per character. -/
theorem gnl_ok_length (text : List Char) (ds : List Int)
    (hok : getNestingLevels text = .ok ds) : ds.length = text.length := by
  rw [(gnl_ok_facts text ds hok).1, length_depthList]

/-- Helper: every entry of a validated depth list is non-negative. -/
theorem gnl_ok_nonneg (text : List Char) (ds : List Int)
    (hok : getNestingLevels text = .ok ds) (k : Nat) (hk : k < ds.length) :
    0 ≤ ds.getD k 0 := by
  obtain ⟨h1, h2, _, _⟩ := gnl_ok_facts text ds hok
  exact h2 _ (List.getD_eq_getElem ds 0 hk ▸ List.getElem_mem hk)

/-- Helper: entry `k` of a validated depth list is the net bracket
contribution of the prefix through position `k`. -/
theorem gnl_ok_getD (text : List Char) (ds : List Int)
    (hok : getNestingLevels text = .ok ds) (k : Nat) (hk : k < ds.length) :
    ds.getD k 0 = deltaSum '[' ']' (text.take (k + 1)) := by
  obtain ⟨h1, _, _, _⟩ := gnl_ok_facts text ds hok
  have hlen := gnl_ok_length text ds hok
  rw [h1, depthList_getD '[' ']' text 0 k (by omega)]
  ring

/-- Helper: the last entry of a validated depth list is zero. -/
theorem gnl_ok_last (text : List Char) (ds : List Int)
    (hok : getNestingLevels text = .ok ds) (hlen : 0 < ds.length) :
    ds.getD (ds.length - 1) 0 = 0 := by
  obtain ⟨h1, h2, h3, h4⟩ := gnl_ok_facts text ds hok
  have hlen2 := gnl_ok_length text ds hok
  have hnn := gnl_ok_nonneg text ds hok (ds.length - 1) (by omega)
  have hval := gnl_ok_getD text ds hok (ds.length - 1) (by omega)
  rw [show ds.length - 1 + 1 = text.length from by omega, List.take_length] at hval
  omega

/-- Helper: consecutive entries of a validated depth list differ by the
`bdelta` of the later character. -/
theorem gnl_ok_step (text : List Char) (ds : List Int)
    (hok : getNestingLevels text = .ok ds) (k : Nat) (hk : k + 1 < ds.length) :
    ds.getD (k + 1) 0 = ds.getD k 0 + bdelta '[' ']' (text.getD (k + 1) ' ') := by
  have hlen := gnl_ok_length text ds hok
  rw [gnl_ok_getD text ds hok (k + 1) hk, gnl_ok_getD text ds hok k (by omega),
    deltaSum_take_succ '[' ']' text (k + 1) (by omega)]

/-- Helper: the first entry of a validated depth list is the `bdelta` of
the first character. -/
theorem gnl_ok_head (text : List Char) (ds : List Int)
    (hok : getNestingLevels text = .ok ds) (hlen : 0 < ds.length) :
    ds.getD 0 0 = bdelta '[' ']' (text.getD 0 ' ') := by
  have hlen2 := gnl_ok_length text ds hok
  rw [gnl_ok_getD text ds hok 0 hlen,
    show (1 : Nat) = 0 + 1 from rfl, deltaSum_take_succ '[' ']' text 0 (by omega)]
  simp [deltaSum]

/-- C3: on a non-empty program with balanced brackets the Depth Analyzer
succeeds and returns, for each position, the number of unmatched open
brackets enclosing it — the count of open brackets minus the count of
close brackets in the prefix through that position, so that an open
bracket is counted after its own increment and a close bracket after its
own decrement. -/
theorem depth_analyzer_counts (text : List Char) (hne : text ≠ []) (hb : Balanced text) :
    ∃ ds, getNestingLevels text = .ok ds ∧ ds.length = text.length ∧
      ∀ k < text.length, ds.getD k 0 =
        ((text.take (k + 1)).count '[' : Int) - ((text.take (k + 1)).count ']' : Int) := by
  obtain ⟨hb1, hb2⟩ := hb
  have hcond : ∀ x ∈ depthList '[' ']' text 0, 0 ≤ x := by
    intro x hx
    obtain ⟨n, hn, hval⟩ := List.mem_iff_getElem.mp hx
    have hn2 : n < text.length := by
      have := length_depthList '[' ']' text 0
      omega
    have := depthList_getD '[' ']' text 0 n hn2
    rw [List.getD_eq_getElem _ 0 hn, hval] at this
    rw [this, deltaSum_eq_counts]
    have := hb1 (n + 1) (by omega)
    omega
  have hfin : (0 : Int) + deltaSum '[' ']' text ≤ 0 := by
    rw [deltaSum_eq_counts]
    omega
  have hok : getNestingLevels text = .ok (depthList '[' ']' text 0) := by
    unfold getNestingLevels
    rw [if_neg (by intro hc; exact hne (List.length_eq_zero.mp hc))]
    exact (gnlAux_ok_iff '[' ']' text 0 0 (-1) (depthList '[' ']' text 0)).mpr
      ⟨hcond, hfin, rfl⟩
  refine ⟨depthList '[' ']' text 0, hok, length_depthList '[' ']' text 0, ?_⟩
  intro k hk
  rw [depthList_getD '[' ']' text 0 k hk, deltaSum_eq_counts]
  ring

/-- Witness for C3 on the program `+[]`. -/
theorem depth_analyzer_counts_witness :
    ((['+', '[', ']'] : List Char) ≠ [] ∧ Balanced ['+', '[', ']']) ∧
    ∃ ds, getNestingLevels ['+', '[', ']'] = .ok ds ∧ ds.length = 3 ∧
      ∀ k < 3, ds.getD k 0 =
        (((['+', '[', ']'].take (k + 1)).count '[' : Int) -
          ((['+', '[', ']'].take (k + 1)).count ']' : Int)) :=
  ⟨⟨by decide, by decide⟩, depth_analyzer_counts ['+', '[', ']'] (by decide) (by decide)⟩

/-- Helper: when the scan ends with "Unmatched opening bracket", the
reported position is the Python `lastopen` value — the position of the most
recent opening bracket. -/
theorem gnlAux_unmatchedOpening (opening closing : Char) :
    ∀ (text : List Char) (i : Nat) (d lo p : Int),
      gnlAux opening closing text i d lo = .error (.unmatchedOpening p) →
      p = lastOpenPos opening text i lo
  | [], i, d, lo, p => by
      simp only [gnlAux, lastOpenPos]
      rcases Decidable.em (d > 0) with h | h
      · rw [if_pos h]
        intro he
        injection he with he
        injection he with he
        exact he.symm
      · rw [if_neg h]
        intro he
        exact Except.noConfusion he
  | c :: rest, i, d, lo, p => by
      simp only [gnlAux, lastOpenPos]
      rcases Decidable.em (d + bdelta opening closing c < 0) with h | h
      · rw [if_pos h]
        intro he
        injection he with he
        exact BFError.noConfusion he
      · rw [if_neg h]
        intro he
        cases hrec : gnlAux opening closing rest (i + 1) (d + bdelta opening closing c)
            (if c = opening then (i : Int) else lo) with
        | error e =>
            rw [hrec] at he
            injection he with he
            rw [he] at hrec
            exact gnlAux_unmatchedOpening opening closing rest (i + 1) _ _ p hrec
        | ok ds2 =>
            rw [hrec] at he
            exact Except.noConfusion he

/-- C7 (amended): on `"[["` the analyzer reports `UnmatchedOpeningBracket`
at position 1 — the inner, most recent bracket — not the outer one; on
`"]"` it reports `UnmatchedClosingBracket` at position 0; and in general
the position reported when the final depth is non-zero is the `lastopen`
value, the position of the last opening bracket scanned. -/
theorem unmatched_opening_reports_lastopen :
    getNestingLevels ['[', '['] = .error (.unmatchedOpening 1) ∧
    getNestingLevels [']'] = .error (.unmatchedClosing 0) ∧
    ∀ (text : List Char) (p : Int),
      getNestingLevels text = .error (.unmatchedOpening p) →
      p = lastOpenPos '[' text 0 (-1) := by
  refine ⟨by decide, by decide, ?_⟩
  intro text p he
  unfold getNestingLevels at he
  split_ifs at he with h
  · injection he with he
    exact BFError.noConfusion he
  · exact gnlAux_unmatchedOpening '[' ']' text 0 0 (-1) p he

/-- Witness for C7 at the concrete program `"[["`. -/
theorem unmatched_opening_reports_lastopen_witness :
    getNestingLevels ['[', '['] = .error (.unmatchedOpening 1) ∧
    (1 : Int) = lastOpenPos '[' ['[', '['] 0 (-1) :=
  ⟨by decide, unmatched_opening_reports_lastopen.2.2 ['[', '['] 1 (by decide)⟩

/-- C2: on a validated depth sequence, `findLevelOpening` at a close
bracket scans backward from `i - 1` down to but not including index 0;
when the matching open bracket sits at position `j ≥ 2` the scan finds
depth `level` first at `j - 1` and returns `j + 1`, the position
immediately after the matching open bracket, and when the scan exhausts
(the matching open bracket sits at position 0 or 1) it fails with
`UnmatchedClosingBracket i`. -/
theorem backward_resolution (text : List Char) (ds : List Int) (i j : Nat)
    (hok : getNestingLevels text = .ok ds)
    (hi : i < ds.length)
    (_hcc : text.getD i ' ' = ']')
    (hj : j < i) (hoc : text.getD j ' ' = '[')
    (hdj : ds.getD j 0 = ds.getD i 0 + 1)
    (hint : ∀ k, j < k → k < i → ds.getD i 0 < ds.getD k 0) :
    (2 ≤ j → findLevelOpening ds i = .ok (j + 1)) ∧
    (j < 2 → findLevelOpening ds i = .error (.unmatchedClosing i)) := by
  have hlen := gnl_ok_length text ds hok
  have hb1 : bdelta '[' ']' '[' = 1 := by decide
  have htl : (ds.take i).length = i := by
    rw [List.length_take]
    omega
  have hB : ∀ t, j ≤ t → t < i → ds.getD t 0 ≠ ds.getD i 0 := by
    intro t ht1 ht2
    rcases Decidable.em (t = j) with h | h
    · rw [h, hdj]; omega
    · have := hint t (by omega) ht2
      omega
  constructor
  · intro h2
    have hstepj := gnl_ok_step text ds hok (j - 1) (by omega)
    rw [show j - 1 + 1 = j from by omega, hoc, hb1] at hstepj
    have hscan : scanBackEq (ds.take i) (ds.getD i 0) (i - 1) = some (j - 1) := by
      rw [scanBackEq_eq_some_iff]
      refine ⟨by omega, by omega, ?_, ?_⟩
      · rw [getD_take _ _ _ (by omega)]
        omega
      · intro t ht1 ht2
        rw [getD_take _ _ _ (by omega)]
        exact hB t (by omega) (by omega)
    simp only [findLevelOpening]
    rw [if_pos hi, htl, hscan]
    show Except.ok (j - 1 + 2) = Except.ok (j + 1)
    rw [show j - 1 + 2 = j + 1 from by omega]
  · intro h2
    have hscan : scanBackEq (ds.take i) (ds.getD i 0) (i - 1) = none := by
      rw [scanBackEq_eq_none_iff]
      intro t ht1 ht2
      rw [getD_take _ _ _ (by omega)]
      exact hB t (by omega) (by omega)
    simp only [findLevelOpening]
    rw [if_pos hi, htl, hscan]

/-- Witness for C2 on `"++[-]"`: the close bracket at 4 has its matching
open bracket at 2, and resolution returns 3; and on `"+[-]"` shifted to
`",[-]"`-like cases with the open bracket at position 1 the scan exhausts
(exercised through the `j < 2` branch with program `"+[-]"`). -/
theorem backward_resolution_witness :
    (getNestingLevels ['+', '+', '[', '-', ']'] = .ok [0, 0, 1, 1, 0] ∧
      findLevelOpening [0, 0, 1, 1, 0] 4 = .ok 3) ∧
    (getNestingLevels ['+', '[', '-', ']'] = .ok [0, 1, 1, 0] ∧
      findLevelOpening [0, 1, 1, 0] 3 = .error (.unmatchedClosing 3)) :=
  ⟨⟨by decide,
      (backward_resolution ['+', '+', '[', '-', ']'] [0, 0, 1, 1, 0] 4 2 (by decide)
        (by decide) (by decide) (by decide) (by decide) (by decide)
        (by intro k hk1 hk2; have hk : k = 3 := (by omega); subst hk; decide)).1
        (by decide)⟩,
    ⟨by decide,
      (backward_resolution ['+', '[', '-', ']'] [0, 1, 1, 0] 3 1 (by decide)
        (by decide) (by decide) (by decide) (by decide) (by decide)
        (by intro k hk1 hk2; have hk : k = 2 := (by omega); subst hk; decide)).2
        (by decide)⟩⟩

/-- C1 (amended): for every validated program and open-bracket position
`i` with `i ≥ 2`, resolving forward with `findLevelClosing` and then
backward with `findLevelOpening` from the close-bracket position just
before the forward result returns to `i + 1`, the position immediately
after the open bracket.  (For `i = 0` and `i = 1` the backward scan stops
before index 0 and fails — see the counterexample.) -/
theorem jump_roundtrip (text : List Char) (ds : List Int) (i : Nat)
    (hok : getNestingLevels text = .ok ds)
    (hi : i < ds.length) (hoc : text.getD i ' ' = '[') (h2 : 2 ≤ i) :
    ∃ c, findLevelClosing ds i = .ok c ∧ findLevelOpening ds (c - 1) = .ok (i + 1) := by
  have hlen := gnl_ok_length text ds hok
  have hb1 : bdelta '[' ']' '[' = 1 := by decide
  have hstep_ge : ∀ t, t + 1 < ds.length → ds.getD t 0 - 1 ≤ ds.getD (t + 1) 0 := by
    intro t ht
    have hs := gnl_ok_step text ds hok t ht
    have hb := bdelta_bounds '[' ']' (text.getD (t + 1) ' ')
    omega
  have hstepi := gnl_ok_step text ds hok (i - 1) (by omega)
  rw [show i - 1 + 1 = i from by omega, hoc, hb1] at hstepi
  have hd1 : 1 ≤ ds.getD i 0 := by
    have := gnl_ok_nonneg text ds hok (i - 1) (by omega)
    omega
  have hlast := gnl_ok_last text ds hok (by omega)
  have hi1 : i + 1 < ds.length := by
    rcases Decidable.em (i = ds.length - 1) with h | h
    · rw [h] at hd1
      omega
    · omega
  cases hffind : findFirstLt (ds.drop (i + 1)) (ds.getD i 0) with
  | none =>
      exfalso
      rw [findFirstLt_eq_none_iff] at hffind
      have := hffind (ds.length - 1 - (i + 1)) (by rw [List.length_drop]; omega)
      rw [getD_drop, show i + 1 + (ds.length - 1 - (i + 1)) = ds.length - 1 from by omega,
        hlast] at this
      omega
  | some k =>
      obtain ⟨hk1, hk2, hk3⟩ := (findFirstLt_eq_some_iff _ _ k).mp hffind
      rw [getD_drop] at hk2
      rw [List.length_drop] at hk1
      have hprev : ∀ j2, j2 < k → ds.getD i 0 ≤ ds.getD (i + 1 + j2) 0 := by
        intro j2 hj2
        have := hk3 j2 hj2
        rw [getD_drop] at this
        omega
      have hdm : ds.getD (i + 1 + k) 0 = ds.getD i 0 - 1 := by
        rcases k with _ | k2
        · have := hstep_ge i (by omega)
          rw [show i + 1 + 0 = i + 1 from by omega] at hk2 ⊢
          omega
        · have ha := hprev k2 (by omega)
          have hb := hstep_ge (i + 1 + k2) (by omega)
          rw [show i + 1 + (k2 + 1) = i + 1 + k2 + 1 from by omega] at hk2 ⊢
          omega
      have hm2 : i + 1 + k < ds.length := by omega
      refine ⟨i + k + 2, ?_, ?_⟩
      · simp only [findLevelClosing]
        rw [if_pos hi, hffind]
      · rw [show i + k + 2 - 1 = i + 1 + k from by omega]
        have htl : (ds.take (i + 1 + k)).length = i + 1 + k := by
          rw [List.length_take]
          omega
        have hscan : scanBackEq (ds.take (i + 1 + k)) (ds.getD (i + 1 + k) 0)
            (i + 1 + k - 1) = some (i - 1) := by
          rw [scanBackEq_eq_some_iff]
          refine ⟨by omega, by omega, ?_, ?_⟩
          · rw [getD_take _ _ _ (by omega), hdm]
            omega
          · intro t ht1 ht2
            rw [getD_take _ _ _ (by omega), hdm]
            rcases Decidable.em (t = i) with h | h
            · rw [h]
              omega
            · have := hprev (t - (i + 1)) (by omega)
              rw [show i + 1 + (t - (i + 1)) = t from by omega] at this
              omega
        simp only [findLevelOpening]
        rw [if_pos hm2, htl, hscan]
        show Except.ok (i - 1 + 2) = Except.ok (i + 1)
        rw [show i - 1 + 2 = i + 1 from by omega]

/-- Witness for C1 on `"++[]"`: forward from the open bracket at 2 gives
4, and backward from 3 returns 3 = 2 + 1. -/
theorem jump_roundtrip_witness :
    (getNestingLevels ['+', '+', '[', ']'] = .ok [0, 0, 1, 0] ∧
      (['+', '+', '[', ']'] : List Char).getD 2 ' ' = '[') ∧
    ∃ c, findLevelClosing [0, 0, 1, 0] 2 = .ok c ∧
      findLevelOpening [0, 0, 1, 0] (c - 1) = .ok 3 :=
  ⟨⟨by decide, by decide⟩,
    jump_roundtrip ['+', '+', '[', ']'] [0, 0, 1, 0] 2 (by decide) (by decide) (by decide)
      (by decide)⟩

end BF
